import Mathlib

/-!
Shallow embedding of the HHI/PCI trade-dashboard engine (src/app.py) and
proofs about the claims of its specification.

The embedding models pandas float scalars with an explicit `PFloat` type
(finite rational, plus/minus infinity, NaN) so that division by a zero
total, `fillna`, and NaN/infinity propagation are represented faithfully
rather than being erased by Lean's total division on `ℚ`.
-/

namespace Trade

/-- Pandas-style float scalar: a finite rational, an infinity, or NaN. -/
inductive PFloat where
  | num (q : ℚ)
  | posInf
  | negInf
  | nan
deriving DecidableEq

namespace PFloat

/-- Pandas division of two finite column values: `v / t` yields NaN for
`0 / 0`, a signed infinity for `v / 0` with `v ≠ 0`, else the rational
quotient (models `merged["Value"] / merged["total_value"]`). -/
def pdiv (v t : ℚ) : PFloat :=
  if t = 0 then (if v = 0 then nan else if 0 < v then posInf else negInf)
  else num (v / t)

/-- Pandas `.fillna(0)`: replaces NaN by 0 and keeps every other value,
infinities included. -/
def fillna0 : PFloat → PFloat
  | nan => num 0
  | x => x

/-- Squaring (`** 2`): infinities square to plus infinity, NaN stays NaN. -/
def sq : PFloat → PFloat
  | num q => num (q * q)
  | posInf => posInf
  | negInf => posInf
  | nan => nan

/-- Pandas float addition: NaN absorbs, opposite infinities give NaN. -/
def add : PFloat → PFloat → PFloat
  | nan, _ => nan
  | _, nan => nan
  | posInf, negInf => nan
  | negInf, posInf => nan
  | posInf, _ => posInf
  | _, posInf => posInf
  | negInf, _ => negInf
  | _, negInf => negInf
  | num p, num q => num (p + q)

/-- Sum of a list of pandas floats (`groupby(...).sum()` over a column
with no NaN left in it). -/
def sum (l : List PFloat) : PFloat := l.foldr add (num 0)

/-- Strict "greater than" on pandas floats; NaN compares false with
everything (used by `rank(ascending=False)`). -/
def gt : PFloat → PFloat → Bool
  | nan, _ => false
  | _, nan => false
  | posInf, posInf => false
  | posInf, _ => true
  | _, posInf => false
  | num p, num q => decide (q < p)
  | num _, negInf => true
  | negInf, _ => false

/-- `descLe a b` : `a` may be placed at or before `b` when sorting a
column in descending order, with NaN placed last
(`sort_values(..., ascending=False)` with the default `na_position`). -/
def descLe : PFloat → PFloat → Bool
  | _, nan => true
  | nan, _ => false
  | posInf, _ => true
  | _, posInf => false
  | num p, num q => decide (q ≤ p)
  | num _, negInf => true
  | negInf, num _ => false
  | negInf, negInf => true

end PFloat

/-! ### Data model

One `TradeRow` per record of the loaded dataset, after the normalization
at the top of src/app.py (`Year`/`Month` derived, `HS10` zero-padded,
`Value` coerced to numeric with unparseable cells becoming NaN = `none`).
Optional columns of the loaded file are tracked by presence flags on
`Table`, mirroring the repeated `if col in df.columns` checks. -/

structure TradeRow where
  year : Int
  hs10 : String
  supc : String
  country : String
  province : Option String
  state : Option String
  value : Option ℚ
  description : Option String
  supcDesc : Option String
  naics : Option String
  ioic : Option String
deriving DecidableEq

structure Table where
  rows : List TradeRow
  hasProvince : Bool
  hasState : Bool
  hasNaics : Bool
  hasIoic : Bool
  hasDescription : Bool
  hasSupcDesc : Bool
deriving DecidableEq

/-- The grouping key of the concentration table: `(Year, HS10, SUPC)`. -/
abbrev HKey := Int × String × String

def rowKey (r : TradeRow) : HKey := (r.year, r.hs10, r.supc)

/-- `df.dropna(subset=["Value"])`. -/
def dropValueNa (rows : List TradeRow) : List TradeRow :=
  rows.filter (fun r => r.value.isSome)

def rowValue (r : TradeRow) : ℚ := r.value.getD 0

def sumValues (rows : List TradeRow) : ℚ := (rows.map rowValue).sum

/-- Rows of `dfc` belonging to one `(Year, HS10, SUPC)` key. -/
def keyRows (dfc : List TradeRow) (k : HKey) : List TradeRow :=
  dfc.filter (fun r => decide (rowKey r = k))

/-- `total_value` of one key: `groupby(["Year","HS10","SUPC"]).Value.sum()`. -/
def productTotal (dfc : List TradeRow) (k : HKey) : ℚ :=
  sumValues (keyRows dfc k)

/-- Deduplication keeping the first occurrence of each element, in order
(pandas `drop_duplicates` / `unique`). -/
def firstDedup [DecidableEq α] : List α → List α
  | [] => []
  | a :: l => a :: (firstDedup l).filter (fun x => decide (x ≠ a))

/-- The distinct origin countries of a key, as grouped by
`groupby(["Year","HS10","SUPC","Country"])`. -/
def countriesOf (dfc : List TradeRow) (k : HKey) : List String :=
  firstDedup ((keyRows dfc k).map (fun r => r.country))

/-- Summed `Value` of one country within one key. -/
def countryValue (dfc : List TradeRow) (k : HKey) (c : String) : ℚ :=
  sumValues ((keyRows dfc k).filter (fun r => decide (r.country = c)))

/-- `share_sq = (Value / total_value).fillna(0) ** 2` (line 131). -/
def shareSq (v t : ℚ) : PFloat :=
  PFloat.sq (PFloat.fillna0 (PFloat.pdiv v t))

/-- `HHI` of one key: sum of `share_sq` over its countries (line 132). -/
def hhiOf (dfc : List TradeRow) (k : HKey) : PFloat :=
  PFloat.sum ((countriesOf dfc k).map
    (fun c => shareSq (countryValue dfc k c) (productTotal dfc k)))

/-! ### Group-key ordering (pandas `groupby` sorts its keys). -/

def strLeB (a b : String) : Bool := !decide (b < a)

def keyLeB : HKey → HKey → Bool
  | (y1, h1, s1), (y2, h2, s2) =>
    decide (y1 < y2) ||
      (decide (y1 = y2) &&
        (decide (h1 < h2) || (decide (h1 = h2) && strLeB s1 s2)))

def KeyLe (a b : HKey) : Prop := keyLeB a b = true

instance : DecidableRel KeyLe := fun a b => by unfold KeyLe; infer_instance

/-- Keys of the aggregated frame, in pandas `groupby` (sorted) order. -/
def sortedKeys (dfc : List TradeRow) : List HKey :=
  List.insertionSort KeyLe (firstDedup (dfc.map rowKey))

/-! ### The HHI frame (`compute_hhi_table`, lines 121-147). -/

structure HhiRow where
  year : Int
  hs10 : String
  supc : String
  hhi : PFloat
  description : Option String
  supcDesc : Option String
deriving DecidableEq

/-- The descriptive columns attached to a key: the `Description` /
`SUPC_Desc` of the first `dfc` row with that key
(`drop_duplicates(subset=["Year","HS10","SUPC"])`, default `keep="first"`,
then a left merge, lines 135-143); a column absent from the table
contributes nothing. -/
def attachedDescription (t : Table) (dfc : List TradeRow) (k : HKey) : Option String :=
  if t.hasDescription then
    (dfc.find? (fun r => decide (rowKey r = k))).bind (fun r => r.description)
  else none

def attachedSupcDesc (t : Table) (dfc : List TradeRow) (k : HKey) : Option String :=
  if t.hasSupcDesc then
    (dfc.find? (fun r => decide (rowKey r = k))).bind (fun r => r.supcDesc)
  else none

def mkHhiRow (t : Table) (dfc : List TradeRow) (k : HKey) : HhiRow :=
  { year := k.1, hs10 := k.2.1, supc := k.2.2,
    hhi := hhiOf dfc k,
    description := attachedDescription t dfc k,
    supcDesc := attachedSupcDesc t dfc k }

/-- The HHI frame before the final sort, one row per key in `groupby`
key order. -/
def hhiRows (t : Table) : List HhiRow :=
  (sortedKeys (dropValueNa t.rows)).map (mkHhiRow t (dropValueNa t.rows))

/-- The lexicographic comparator of
`hhi.sort_values(["Year","HHI"], ascending=[True, False])`. -/
def hhiSortLe (a b : HhiRow) : Bool :=
  decide (a.year < b.year) ||
    (decide (a.year = b.year) && PFloat.descLe a.hhi b.hhi)

def HhiLe (a b : HhiRow) : Prop := hhiSortLe a b = true

instance : DecidableRel HhiLe := fun a b => by unfold HhiLe; infer_instance

/-- The HHI frame after the stable multi-column sort of line 145
(pandas uses a stable lexsort for a multi-column `sort_values`). -/
def hhiSorted (t : Table) : List HhiRow :=
  List.insertionSort HhiLe (hhiRows t)

structure RankedRow where
  year : Int
  hs10 : String
  supc : String
  hhi : PFloat
  description : Option String
  supcDesc : Option String
  rank : Nat
deriving DecidableEq

def toHhi (r : RankedRow) : HhiRow :=
  { year := r.year, hs10 := r.hs10, supc := r.supc, hhi := r.hhi,
    description := r.description, supcDesc := r.supcDesc }

/-- `groupby("Year")["HHI"].rank(method="first", ascending=False)` of the
row `r` of frame `l` whose strictly earlier rows are `pre`: one plus the
number of same-year rows with strictly larger HHI, plus the number of
earlier same-year rows with equal HHI. -/
def pandasRank (l pre : List HhiRow) (r : HhiRow) : Nat :=
  1 + l.countP (fun s => decide (s.year = r.year) && PFloat.gt s.hhi r.hhi)
    + pre.countP (fun s => decide (s.year = r.year) && decide (s.hhi = r.hhi))

def mkRanked (r : HhiRow) (n : Nat) : RankedRow :=
  { year := r.year, hs10 := r.hs10, supc := r.supc, hhi := r.hhi,
    description := r.description, supcDesc := r.supcDesc, rank := n }

/-- Walk the frame assigning each row its pandas rank; `pre` accumulates
the rows already passed, `l` stays the whole frame. -/
def rankAux (l : List HhiRow) (pre : List HhiRow) :
    List HhiRow → List RankedRow
  | [] => []
  | r :: rest => mkRanked r (pandasRank l pre r) :: rankAux l (pre ++ [r]) rest

/-- `hhi_table_all`: the sorted frame with the `Rank` column
(lines 145-146). -/
def rankedTable (t : Table) : List RankedRow :=
  rankAux (hhiSorted t) [] (hhiSorted t)

/-! ### String helpers (Python `.lower()`, `.startswith`, substring
containment, `str(...)` of a missing cell). -/

def pyLower (s : String) : String := String.mk (s.data.map Char.toLower)

def pyStartsWith (s p : String) : Bool := p.data.isPrefixOf s.data

/-- Contiguous-sublist test on lists (used for Python `in` on strings). -/
def isInfixB (sub : List Char) : List Char → Bool
  | [] => decide (sub = [])
  | a :: l => sub.isPrefixOf (a :: l) || isInfixB sub l

def pyContainsCI (s sub : String) : Bool :=
  isInfixB ((pyLower sub).data) ((pyLower s).data)

/-- `astype(str)` of an optional cell: a missing value prints as the
string `"nan"`. -/
def optStr (o : Option String) : String := o.getD ("nan")

/-! ### Filter Predicate Builder (facets of the sidebar). -/

structure Facets where
  years : List Int
  country : String
  province : String
  state : String
  industry : String
deriving DecidableEq

/-- `matched_by_industry` (lines 235-240): keep rows whose `naics` OR
`ioic` starts (case-insensitively) with the industry query; an empty or
all-whitespace query applies no restriction. -/
def matchedByIndustry (t : Table) (rows : List TradeRow) (industrySearch : String) :
    List TradeRow :=
  if industrySearch = "" ∨ industrySearch.trim = "" then rows
  else rows.filter (fun r =>
    (t.hasNaics && pyStartsWith (pyLower (optStr r.naics)) (pyLower industrySearch)) ||
    (t.hasIoic && pyStartsWith (pyLower (optStr r.ioic)) (pyLower industrySearch)))

/-- `get_matched_products` (lines 243-254): the deduplicated
`(HS10, SUPC)` pairs of the rows surviving the country/province/state
and industry facets; a facet equal to `"All"` or empty applies no
restriction, and a facet on an absent column is skipped. -/
def getMatchedProducts (t : Table) (f : Facets) : List (String × String) :=
  let d0 := t.rows
  let d1 := if f.country ≠ "" ∧ f.country ≠ ("All") then
      d0.filter (fun r => decide (r.country = f.country)) else d0
  let d2 := if f.province ≠ "" ∧ f.province ≠ ("All") ∧ t.hasProvince = true then
      d1.filter (fun r => decide (r.province = some f.province)) else d1
  let d3 := if f.state ≠ "" ∧ f.state ≠ ("All") ∧ t.hasState = true then
      d2.filter (fun r => decide (r.state = some f.state)) else d2
  let d4 := matchedByIndustry t d3 f.industry
  if d4 = [] then [] else firstDedup (d4.map (fun r => (r.hs10, r.supc)))

/-- `hhi_filtered` (lines 259-261): the ranked table restricted to the
selected years, and — only when the matched product set is non-empty —
inner-joined with it (pandas `merge(..., how="inner")` on a deduplicated
right table keeps the left rows whose key occurs, in left order). -/
def hhiFiltered (t : Table) (f : Facets) : List RankedRow :=
  let base := (rankedTable t).filter (fun r => f.years.contains r.year)
  let mp := getMatchedProducts t f
  if mp = [] then base
  else base.filter (fun r => mp.contains (r.hs10, r.supc))

/-- `df_preview` (lines 320-335): every facet filter applied in turn,
each one guarded by its own "no restriction" test. -/
def dfPreview (t : Table) (f : Facets) (hsInput supcInput : String) :
    List TradeRow :=
  let d0 := t.rows
  let d1 := if f.years ≠ [] then d0.filter (fun r => f.years.contains r.year) else d0
  let d2 := if f.country ≠ "" ∧ f.country ≠ ("All") then
      d1.filter (fun r => decide (r.country = f.country)) else d1
  let d3 := if f.province ≠ "" ∧ f.province ≠ ("All") ∧ t.hasProvince = true then
      d2.filter (fun r => decide (r.province = some f.province)) else d2
  let d4 := if f.state ≠ "" ∧ f.state ≠ ("All") ∧ t.hasState = true then
      d3.filter (fun r => decide (r.state = some f.state)) else d3
  let d5 := if hsInput ≠ "" then d4.filter (fun r => pyContainsCI r.hs10 hsInput) else d4
  let d6 := if supcInput ≠ "" then d5.filter (fun r => pyContainsCI r.supc supcInput) else d5
  matchedByIndustry t d6 f.industry

/-! ### Numeric coercion (`pd.to_numeric(..., errors="coerce")`),
modelled as a decimal-string parser returning `none` for an
unparseable cell. -/

def natOfDigits (l : List Char) : ℕ :=
  l.foldl (fun a c => 10 * a + (c.toNat - 48)) 0

def parseUnsigned (l : List Char) : Option ℚ :=
  let intPart := l.takeWhile Char.isDigit
  let rest := l.dropWhile Char.isDigit
  match rest with
  | [] => if intPart = [] then none else some ((natOfDigits intPart : ℚ))
  | c :: frac =>
    if c = ('.') ∧ frac.all Char.isDigit ∧ (intPart ≠ [] ∨ frac ≠ []) then
      some ((natOfDigits intPart : ℚ) + (natOfDigits frac : ℚ) / ((10 : ℚ) ^ frac.length))
    else none

def parseNumeric (s : String) : Option ℚ :=
  match s.data with
  | c :: rest =>
    if c = ('-') then (parseUnsigned rest).map (fun q => -q)
    else if c = ('+') then parseUnsigned rest
    else parseUnsigned (c :: rest)
  | [] => none

/-! ### Industry Matrix Builder (IPTB pivot, lines 199-226). -/

structure IptbRow where
  industryCode : String
  origin : String
  dest : String
  tec : String
deriving DecidableEq

structure ConcordRow where
  supc : String
  naicsMod : Option String
  ioic : Option String
deriving DecidableEq

/-- `str.replace("%", "", regex=False)`: removes every `%` character. -/
def removePercents (s : String) : String :=
  String.mk (s.data.filter (fun c => decide (c ≠ ('%'))))

/-- TEC parsing as the source performs it (line 219): remove every `%`,
then coerce to float. -/
def parseTec (s : String) : Option ℚ := parseNumeric (removePercents s)

/-- Modelled from the spec: TEC parsing as the specification describes
it — strip one trailing `%` if present, then parse to float. Kept
separate from `parseTec` (the source behaviour) to compare the two. -/
def stripTrailingPercent (s : String) : String :=
  if s.data.getLast? = some ('%') then String.mk s.data.dropLast else s

def parseTecSpec (s : String) : Option ℚ := parseNumeric (stripTrailingPercent s)

/-- The parsed TEC values of the `(Origin, Dest)` group (NaN cells are
skipped by `groupby(...).mean()`). -/
def tecValues (rows : List IptbRow) (o d : String) : List ℚ :=
  (rows.filter (fun r => decide (r.origin = o) && decide (r.dest = d))).filterMap
    (fun r => parseTec r.tec)

/-- The group mean; `none` when the group has no parseable TEC (a NaN
mean) or does not occur at all (a hole of the pivot). -/
def meanTec (rows : List IptbRow) (o d : String) : Option ℚ :=
  let v := tecValues rows o d
  if v = [] then none else some (v.sum / (v.length : ℚ))

/-- One cell of the dense matrix: `pivot(...).fillna(0)` (lines 223-226). -/
def matrixCell (rows : List IptbRow) (o d : String) : ℚ :=
  (meanTec rows o d).getD 0

/-- Modelled from the spec: the same cell computed with the
specification's trailing-percent parsing, for comparison. -/
def tecValuesSpec (rows : List IptbRow) (o d : String) : List ℚ :=
  (rows.filter (fun r => decide (r.origin = o) && decide (r.dest = d))).filterMap
    (fun r => parseTecSpec r.tec)

def matrixCellSpec (rows : List IptbRow) (o d : String) : ℚ :=
  let v := tecValuesSpec rows o d
  if v = [] then 0 else v.sum / (v.length : ℚ)

/-- The observed origins (pivot index) of the aggregated rows. -/
def matrixOrigins (rows : List IptbRow) : List String :=
  firstDedup (rows.map (fun r => r.origin))

/-- The observed dests (pivot columns) of the aggregated rows. -/
def matrixDests (rows : List IptbRow) : List String :=
  firstDedup (rows.map (fun r => r.dest))

/-- The industry-query restriction of the IPTB rows (lines 200-201). -/
def industryFiltered (iptb : List IptbRow) (industrySearch : String) : List IptbRow :=
  if industrySearch = "" then iptb
  else iptb.filter (fun r => pyStartsWith (pyLower r.industryCode) (pyLower industrySearch))

/-- The lowercased `naics_mod` and `ioic` codes the concordance maps the
given SUPC to (line 206-210). -/
def concordCodes (concord : List ConcordRow) (supcInput : String) : List String :=
  let m := concord.filter (fun c => decide (c.supc = supcInput))
  firstDedup (m.filterMap (fun c => c.naicsMod.map pyLower)) ++
    firstDedup (m.filterMap (fun c => c.ioic.map pyLower))

/-- `matrix_data` (lines 199-210): industry restriction, then — only
when a SUPC is given, the concordance is non-empty, AND that exact SUPC
occurs in it — the concordance restriction. -/
def matrixData (iptb : List IptbRow) (industrySearch : String)
    (concord : List ConcordRow) (supcInput : String) : List IptbRow :=
  let md := industryFiltered iptb industrySearch
  if supcInput ≠ "" ∧ concord ≠ [] then
    if concord.filter (fun c => decide (c.supc = supcInput)) ≠ [] then
      md.filter (fun r => (concordCodes concord supcInput).contains (pyLower r.industryCode))
    else md
  else md

/-! ### `HS10` normalization (line 110): `astype(str).str.zfill(10)`. -/

/-- Python `str.zfill`: pad on the left with `0` up to width `w`,
keeping a leading sign in front of the padding; a string already at
least `w` long is returned unchanged. -/
def zfillChars (l : List Char) (w : Nat) : List Char :=
  if w ≤ l.length then l
  else
    match l with
    | [] => List.replicate w ('0')
    | c :: rest =>
      if c = ('-') ∨ c = ('+') then c :: (List.replicate (w - l.length) ('0') ++ rest)
      else List.replicate (w - l.length) ('0') ++ l

def hs10Normalize (s : String) : String := String.mk (zfillChars s.data 10)

/-- Modelled from the spec: the first non-null `Description` of a key in
input-row order — what the specification says gets attached. Kept
separate from `attachedDescription` (the source behaviour) to compare. -/
def firstNonNullDescription (dfc : List TradeRow) (k : HKey) : Option String :=
  ((keyRows dfc k).filterMap (fun r => r.description)).head?

def firstNonNullSupcDesc (dfc : List TradeRow) (k : HKey) : Option String :=
  ((keyRows dfc k).filterMap (fun r => r.supcDesc)).head?

/-! ### Concrete fixture tables used by witnesses. -/

def sampleRow : TradeRow :=
  { year := 2023, hs10 := "0000000001", supc := "X", country := "CA",
    province := none, state := none, value := some 50,
    description := none, supcDesc := none, naics := none, ioic := none }

def sampleTable : Table :=
  { rows := [sampleRow], hasProvince := false, hasState := false,
    hasNaics := false, hasIoic := false, hasDescription := false,
    hasSupcDesc := false }

def zeroRow : TradeRow :=
  { year := 2023, hs10 := "0000000002", supc := "Y", country := "US",
    province := none, state := none, value := some 0,
    description := none, supcDesc := none, naics := none, ioic := none }

def zeroTable : Table :=
  { rows := [zeroRow], hasProvince := false, hasState := false,
    hasNaics := false, hasIoic := false, hasDescription := false,
    hasSupcDesc := false }

/-- Facets with every selector at its "no restriction" value and an
empty year selection. -/
def noFacets : Facets :=
  { years := [], country := "All", province := "All", state := "All", industry := "" }

def descRowA : TradeRow :=
  { year := 2023, hs10 := "0000000003", supc := "Z", country := "CA",
    province := none, state := none, value := some 0,
    description := none, supcDesc := none, naics := none, ioic := none }

def descRowB : TradeRow :=
  { year := 2023, hs10 := "0000000003", supc := "Z", country := "US",
    province := none, state := none, value := some 0,
    description := some ("Widget"), supcDesc := some ("Gadget"),
    naics := none, ioic := none }

/-- A table whose first row for its key carries null descriptions while
a later row carries non-null ones. -/
def descTable : Table :=
  { rows := [descRowA, descRowB], hasProvince := false, hasState := false,
    hasNaics := false, hasIoic := false, hasDescription := true,
    hasSupcDesc := true }

/-- The single row of `descTable`'s HHI frame. -/
def descHhiRow : HhiRow :=
  { year := 2023, hs10 := ("0000000003"), supc := ("Z"),
    hhi := PFloat.num 0, description := none, supcDesc := none }

/-- The `(Year, HS10, SUPC)` key of an HHI-frame row. -/
def hhiRowKey (r : HhiRow) : HKey := (r.year, r.hs10, r.supc)

/-- The `(Year, HS10, SUPC)` key of a ranked-table row. -/
def rankedKey (r : RankedRow) : HKey := (r.year, r.hs10, r.supc)

/-- The single ranked row of `sampleTable`. -/
def sampleRanked : RankedRow :=
  { year := 2023, hs10 := ("0000000001"), supc := ("X"), hhi := PFloat.num 1,
    description := none, supcDesc := none, rank := 1 }

/-- Facets selecting year 2023 with no country restriction. -/
def facetsAll : Facets :=
  { years := [2023], country := "All", province := "All", state := "All",
    industry := "" }

/-- Facets selecting year 2023 restricted to origin country `CA`. -/
def facetsCA : Facets :=
  { years := [2023], country := "CA", province := "All", state := "All",
    industry := "" }

end Trade

namespace Trade

/-! ## Helper lemmas -/

theorem firstDedup_mem [DecidableEq α] {l : List α} {x : α} :
    x ∈ firstDedup l ↔ x ∈ l := by
  induction l with
  | nil => simp [firstDedup]
  | cons a l ih =>
    simp only [firstDedup, List.mem_cons, List.mem_filter, ih, decide_eq_true_eq]
    constructor
    · rintro (rfl | ⟨h, _⟩)
      · exact Or.inl rfl
      · exact Or.inr h
    · rintro (rfl | h)
      · exact Or.inl rfl
      · by_cases hx : x = a
        · exact Or.inl hx
        · exact Or.inr ⟨h, hx⟩

theorem firstDedup_nodup [DecidableEq α] (l : List α) : (firstDedup l).Nodup := by
  induction l with
  | nil => exact List.nodup_nil
  | cons a l ih =>
    refine List.Nodup.cons ?_ (ih.filter _)
    intro hmem
    have := (List.mem_filter.mp hmem).2
    simp at this

theorem toHhi_mkRanked (r : HhiRow) (n : Nat) : toHhi (mkRanked r n) = r := rfl

theorem rankAux_map_toHhi (l : List HhiRow) :
    ∀ (post pre : List HhiRow), (rankAux l pre post).map toHhi = post := by
  intro post
  induction post with
  | nil => intro pre; rfl
  | cons r rest ih =>
    intro pre
    simp [rankAux, toHhi_mkRanked, ih]

theorem rankAux_length (l : List HhiRow) (pre post : List HhiRow) :
    (rankAux l pre post).length = post.length := by
  have := congrArg List.length (rankAux_map_toHhi l post pre)
  simpa using this

theorem rankedTable_map_toHhi (t : Table) :
    (rankedTable t).map toHhi = hhiSorted t :=
  rankAux_map_toHhi _ _ _

theorem zfillChars_length (l : List Char) (w : Nat) :
    (zfillChars l w).length = max l.length w := by
  unfold zfillChars
  split
  · omega
  · cases l with
    | nil => simp only [List.length_replicate, List.length_nil]; omega
    | cons c rest =>
      simp only []
      split
      · simp only [List.length_cons, List.length_append, List.length_replicate]
        omega
      · simp only [List.length_append, List.length_replicate, List.length_cons]
        omega

theorem zfillChars_of_le (l : List Char) (w : Nat) (h : w ≤ l.length) :
    zfillChars l w = l := by
  unfold zfillChars
  exact if_pos h

/-! ## Claim C7 (productCode normalization) -/

/-- Claim C7, counterexample: the claim states that `productCode`
normalization always yields a string of exactly 10 characters, but
`zfill(10)` leaves an 11-character code unchanged at 11 characters. -/
theorem C7_counterexample : (hs10Normalize ("12345678901")).length ≠ 10 := by decide

/-- Claim C7 as amended: normalization pads with `0` to exactly 10
characters whenever the input string has at most 10 characters (longer
strings are returned unchanged, hence keep their length), and the
normalization is idempotent on every input. -/
theorem C7_padding_idempotent :
    (∀ s : String, s.length ≤ 10 → (hs10Normalize s).length = 10) ∧
    (∀ s : String, s.length ≥ 10 → hs10Normalize s = s) ∧
    (∀ s : String, hs10Normalize (hs10Normalize s) = hs10Normalize s) := by
  refine ⟨?_, ?_, ?_⟩
  · intro s h
    show (zfillChars s.data 10).length = 10
    rw [zfillChars_length]
    have : s.data.length = s.length := rfl
    omega
  · intro s h
    show String.mk (zfillChars s.data 10) = s
    have : s.data.length = s.length := rfl
    rw [zfillChars_of_le s.data 10 (by omega)]
  · intro s
    show String.mk (zfillChars (zfillChars s.data 10) 10) =
      String.mk (zfillChars s.data 10)
    have h : 10 ≤ (zfillChars s.data 10).length := by
      rw [zfillChars_length]; omega
    rw [zfillChars_of_le (zfillChars s.data 10) 10 h]

/-- Claim C7 witness: the amended theorem applied to concrete inputs. -/
theorem C7_padding_idempotent_witness :
    ("1" : String).length ≤ 10 ∧ (hs10Normalize ("1")).length = 10 ∧
    hs10Normalize (hs10Normalize ("1")) = hs10Normalize ("1") :=
  ⟨by decide, C7_padding_idempotent.1 ("1") (by decide),
    C7_padding_idempotent.2.2 ("1")⟩

/-! ## Claim C5 (IPTB matrix: TEC parsing, mean aggregation, dense fill) -/

/-- Claim C5, counterexample: the claim describes TEC parsing as
"strip a trailing `%` (if present), then convert to float", but the code
removes every `%` character: on the cell `"1%0"` the code parses `10`
and fills the `[A][B]` cell with `10`, while trailing-percent parsing
fails and would leave the cell at `0`. -/
theorem C5_counterexample :
    parseTec ("1%0") = some 10 ∧ parseTecSpec ("1%0") = none ∧
    matrixCell [⟨("I"), ("A"), ("B"), ("1%0")⟩] ("A") ("B") = 10 ∧
    matrixCellSpec [⟨("I"), ("A"), ("B"), ("1%0")⟩] ("A") ("B") = 0 := by
  refine ⟨by decide, by decide, ?_, ?_⟩
  · have h : tecValues [⟨("I"), ("A"), ("B"), ("1%0")⟩] ("A") ("B") = [10] := by decide
    rw [matrixCell, meanTec, h]
    norm_num
  · have h : tecValuesSpec [⟨("I"), ("A"), ("B"), ("1%0")⟩] ("A") ("B") = [] := by decide
    rw [matrixCellSpec, h]
    norm_num

/-- Claim C5 as amended: TEC cells are parsed by removing every `%`
character (not only a trailing one) and coercing to float; each observed
`(origin, dest)` cell holds the arithmetic mean of its parsed TEC
values; every pair absent from the aggregated rows holds exactly `0.0`;
and the end-to-end scenario `("10%", "20%")` yields cell `[A][B] = 15.0`
with the unobserved `[A][A] = 0.0`. -/
theorem C5_matrix_mean_dense :
    (∀ (rows : List IptbRow) (o d : String),
      (∀ r ∈ rows, ¬(r.origin = o ∧ r.dest = d)) → matrixCell rows o d = 0) ∧
    (∀ (rows : List IptbRow) (o d : String), tecValues rows o d ≠ [] →
      matrixCell rows o d =
        (tecValues rows o d).sum / ((tecValues rows o d).length : ℚ)) ∧
    matrixCell [⟨("I"), ("A"), ("B"), ("10%")⟩, ⟨("I"), ("A"), ("B"), ("20%")⟩]
      ("A") ("B") = 15 ∧
    matrixCell [⟨("I"), ("A"), ("B"), ("10%")⟩, ⟨("I"), ("A"), ("B"), ("20%")⟩]
      ("A") ("A") = 0 := by
  refine ⟨?_, ?_, ?_, ?_⟩
  · intro rows o d h
    have hnil : rows.filter (fun r => decide (r.origin = o) && decide (r.dest = d)) = [] := by
      rw [List.filter_eq_nil_iff]
      intro r hr
      simp only [Bool.and_eq_true, decide_eq_true_eq]
      exact fun hc => h r hr ⟨hc.1, hc.2⟩
    simp [matrixCell, meanTec, tecValues, hnil]
  · intro rows o d h
    rw [matrixCell, meanTec]
    simp only [if_neg h, Option.getD_some]
  · have h : tecValues [⟨("I"), ("A"), ("B"), ("10%")⟩, ⟨("I"), ("A"), ("B"), ("20%")⟩]
        ("A") ("B") = [10, 20] := by decide
    rw [matrixCell, meanTec, h]
    norm_num
    decide
  · have h : tecValues [⟨("I"), ("A"), ("B"), ("10%")⟩, ⟨("I"), ("A"), ("B"), ("20%")⟩]
        ("A") ("A") = [] := by decide
    rw [matrixCell, meanTec, h]
    simp

/-- Claim C5 witness: the amended theorem applied at concrete inputs,
discharging the hypotheses of its universally quantified parts. -/
theorem C5_matrix_mean_dense_witness :
    (∀ r ∈ ([] : List IptbRow), ¬(r.origin = ("X") ∧ r.dest = ("Y"))) ∧
    matrixCell ([] : List IptbRow) ("X") ("Y") = 0 :=
  ⟨by simp, C5_matrix_mean_dense.1 [] ("X") ("Y") (by simp)⟩

/-! ## Claim C9 (concordance restriction skipped for an unknown SUPC) -/

/-- Claim C9: when a SUPC is supplied for the matrix and the concordance
table is non-empty but does not contain that exact SUPC, no concordance
restriction is applied: the matrix rows are exactly the
industry-filtered rows, the same as if no SUPC had been given. -/
theorem C9_concord_unmatched_supc (iptb : List IptbRow) (ind : String)
    (concord : List ConcordRow) (supcInput : String)
    (h1 : supcInput ≠ "") (h2 : concord ≠ [])
    (h3 : ∀ c ∈ concord, c.supc ≠ supcInput) :
    matrixData iptb ind concord supcInput = industryFiltered iptb ind ∧
    matrixData iptb ind concord supcInput = matrixData iptb ind concord ("") := by
  have hf : concord.filter (fun c => decide (c.supc = supcInput)) = [] := by
    rw [List.filter_eq_nil_iff]
    intro c hc
    simpa using h3 c hc
  constructor
  · unfold matrixData
    rw [if_pos ⟨h1, h2⟩, if_neg (by simp [hf])]
  · unfold matrixData
    rw [if_pos ⟨h1, h2⟩, if_neg (by simp [hf]), if_neg (by simp)]

/-- Claim C9 witness: the theorem applied at a concrete IPTB table,
concordance table, and SUPC missing from the concordance. -/
theorem C9_concord_unmatched_supc_witness :
    (("9999") : String) ≠ "" ∧
    ([⟨("0001"), some ("bs1"), none⟩] : List ConcordRow) ≠ [] ∧
    (∀ c ∈ ([⟨("0001"), some ("bs1"), none⟩] : List ConcordRow), c.supc ≠ ("9999")) ∧
    matrixData [⟨("BS"), ("A"), ("B"), ("10")⟩] ("") [⟨("0001"), some ("bs1"), none⟩]
      ("9999") = industryFiltered [⟨("BS"), ("A"), ("B"), ("10")⟩] ("") :=
  ⟨by decide, by decide, by decide,
    (C9_concord_unmatched_supc [⟨("BS"), ("A"), ("B"), ("10")⟩] ("")
      [⟨("0001"), some ("bs1"), none⟩] ("9999")
      (by decide) (by decide) (by decide)).1⟩

/-! ## Claim C10 (empty facet match leaves the HHI table year-filtered) -/

/-- Claim C10: when the country/province/state/industry facets match no
row of the dataset (so the matched product set is empty), the ranked
HHI table is restricted only by the selected years, not emptied. -/
theorem C10_empty_match_unfiltered (t : Table) (f : Facets)
    (h : getMatchedProducts t f = []) :
    hhiFiltered t f = (rankedTable t).filter (fun r => f.years.contains r.year) := by
  simp [hhiFiltered, h]

/-- Claim C10 witness: a country facet matching no row of the sample
table leaves the ranked table year-filtered only. -/
theorem C10_empty_match_unfiltered_witness :
    getMatchedProducts sampleTable
      ⟨[2023], ("ZZ"), ("All"), ("All"), ""⟩ = [] ∧
    hhiFiltered sampleTable ⟨[2023], ("ZZ"), ("All"), ("All"), ""⟩ =
      (rankedTable sampleTable).filter (fun r => [(2023 : Int)].contains r.year) :=
  ⟨by decide,
    C10_empty_match_unfiltered sampleTable ⟨[2023], ("ZZ"), ("All"), ("All"), ""⟩
      (by decide)⟩

/-! ## Claim C6 (all facets at "no restriction") -/

/-- Claim C6, counterexample: the claim states that an empty year
selection imposes no year restriction on any filtered output including
the ranked HHI table, but the ranked-table path applies
`Year.isin(selected_years)` unconditionally: with no facet restriction
and an empty year set the ranked output is empty while the table has a
row. -/
theorem C6_counterexample :
    hhiFiltered sampleTable noFacets = [] ∧ rankedTable sampleTable ≠ [] := by
  constructor
  · simp [hhiFiltered, noFacets]
  · have h1 : (rankedTable sampleTable).length = 1 := by
      rw [rankedTable, rankAux_length, hhiSorted, List.length_insertionSort,
        hhiRows, List.length_map]
      decide
    intro hc
    rw [hc] at h1
    simp at h1

/-- Claim C6 as amended: with every facet at "no restriction" the
preview filter returns the input table unchanged (empty years meaning
"all years" there), but the ranked-HHI path filters by
`Year ∈ selected_years` unconditionally, so an empty year selection
yields an empty ranked table rather than an unrestricted one. -/
theorem C6_no_restriction_identity :
    (∀ t : Table, dfPreview t noFacets ("") ("") = t.rows) ∧
    (∀ (t : Table) (f : Facets), f.years = [] → hhiFiltered t f = []) := by
  constructor
  · intro t
    simp [dfPreview, noFacets, matchedByIndustry]
  · intro t f h
    simp [hhiFiltered, h]

/-- Claim C6 witness: the amended theorem applied to the sample table. -/
theorem C6_no_restriction_identity_witness :
    dfPreview sampleTable noFacets ("") ("") = sampleTable.rows ∧
    noFacets.years = [] ∧ hhiFiltered sampleTable noFacets = [] :=
  ⟨C6_no_restriction_identity.1 sampleTable, rfl,
    C6_no_restriction_identity.2 sampleTable noFacets rfl⟩

/-! ## Claim C2 (zero total value: shares and HHI defined as exactly 0) -/

theorem list_sum_nonneg_q {l : List ℚ} (h : ∀ x ∈ l, 0 ≤ x) : 0 ≤ l.sum := by
  induction l with
  | nil => simp
  | cons a l ih =>
    rw [List.sum_cons]
    have ha := h a (List.mem_cons_self a l)
    have hl := ih (fun x hx => h x (List.mem_cons_of_mem a hx))
    linarith

theorem list_all_zero_of_sum_zero {l : List ℚ} (h : ∀ x ∈ l, 0 ≤ x)
    (h0 : l.sum = 0) : ∀ x ∈ l, x = 0 := by
  induction l with
  | nil => simp
  | cons a l ih =>
    rw [List.sum_cons] at h0
    have ha := h a (List.mem_cons_self a l)
    have hl : ∀ x ∈ l, 0 ≤ x := fun x hx => h x (List.mem_cons_of_mem a hx)
    have hls := list_sum_nonneg_q hl
    have ha0 : a = 0 := by linarith
    have hl0 : l.sum = 0 := by linarith
    intro x hx
    rcases List.mem_cons.mp hx with rfl | hx
    · exact ha0
    · exact ih hl hl0 x hx

theorem list_sum_of_all_zero {l : List ℚ} (h : ∀ x ∈ l, x = 0) : l.sum = 0 := by
  induction l with
  | nil => simp
  | cons a l ih =>
    rw [List.sum_cons, h a (List.mem_cons_self a l),
      ih (fun x hx => h x (List.mem_cons_of_mem a hx)), add_zero]

theorem pfloat_sum_of_all_zero {l : List PFloat}
    (h : ∀ x ∈ l, x = PFloat.num 0) : PFloat.sum l = PFloat.num 0 := by
  induction l with
  | nil => rfl
  | cons a l ih =>
    show PFloat.add a (PFloat.sum l) = PFloat.num 0
    rw [h a (List.mem_cons_self a l),
      ih (fun x hx => h x (List.mem_cons_of_mem a hx))]
    show PFloat.num (0 + 0) = PFloat.num 0
    rw [add_zero]

theorem shareSq_zero_zero : shareSq 0 0 = PFloat.num 0 := by
  simp [shareSq, PFloat.pdiv, PFloat.fillna0, PFloat.sq]

/-- Claim C2: for a key whose total value is 0 (under the data model's
non-negative values), every country's `share_sq` and the key's HHI are
the exact float 0 — not NaN, not an infinity — because `0/0` gives NaN
and `.fillna(0)` replaces it before squaring. -/
theorem C2_zero_total_share_hhi_zero (t : Table) (k : HKey)
    (hv : ∀ r ∈ t.rows, 0 ≤ rowValue r)
    (h0 : productTotal (dropValueNa t.rows) k = 0) :
    (∀ c ∈ countriesOf (dropValueNa t.rows) k,
      shareSq (countryValue (dropValueNa t.rows) k c)
        (productTotal (dropValueNa t.rows) k) = PFloat.num 0) ∧
    hhiOf (dropValueNa t.rows) k = PFloat.num 0 := by
  have hv' : ∀ r ∈ dropValueNa t.rows, 0 ≤ rowValue r := by
    intro r hr
    exact hv r (List.mem_of_mem_filter hr)
  have hkv : ∀ r ∈ keyRows (dropValueNa t.rows) k, 0 ≤ rowValue r := by
    intro r hr
    exact hv' r (List.mem_of_mem_filter hr)
  have hall : ∀ r ∈ keyRows (dropValueNa t.rows) k, rowValue r = 0 := by
    have := list_all_zero_of_sum_zero (l := (keyRows (dropValueNa t.rows) k).map rowValue)
      (by intro x hx
          obtain ⟨r, hr, rfl⟩ := List.mem_map.mp hx
          exact hkv r hr) h0
    intro r hr
    exact this (rowValue r) (List.mem_map.mpr ⟨r, hr, rfl⟩)
  have hcv : ∀ c, countryValue (dropValueNa t.rows) k c = 0 := by
    intro c
    apply list_sum_of_all_zero
    intro x hx
    obtain ⟨r, hr, rfl⟩ := List.mem_map.mp hx
    exact hall r (List.mem_of_mem_filter hr)
  constructor
  · intro c _
    rw [hcv c, h0, shareSq_zero_zero]
  · apply pfloat_sum_of_all_zero
    intro x hx
    obtain ⟨c, _, rfl⟩ := List.mem_map.mp hx
    rw [hcv c, h0, shareSq_zero_zero]

/-- Claim C2 witness: the theorem applied to a table whose only row for
the key has value 0. -/
theorem C2_zero_total_share_hhi_zero_witness :
    productTotal (dropValueNa zeroTable.rows) (2023, ("0000000002"), ("Y")) = 0 ∧
    hhiOf (dropValueNa zeroTable.rows) (2023, ("0000000002"), ("Y")) = PFloat.num 0 :=
  ⟨by simp [productTotal, keyRows, dropValueNa, sumValues, rowValue, rowKey,
      zeroTable, zeroRow],
    (C2_zero_total_share_hhi_zero zeroTable (2023, ("0000000002"), ("Y"))
      (by simp [zeroTable, zeroRow, rowValue])
      (by simp [productTotal, keyRows, dropValueNa, sumValues, rowValue, rowKey,
        zeroTable, zeroRow])).2⟩

/-! ## Claim C8 (attached description of a key) -/

/-- Claim C8, counterexample: the claim states the first *non-null*
description per key is attached, but `drop_duplicates(keep="first")`
takes the first row per key wholesale: when that row's description is
null, null is attached even though a later row has one. -/
theorem C8_counterexample :
    attachedDescription descTable (dropValueNa descTable.rows)
      (2023, ("0000000003"), ("Z")) = none ∧
    firstNonNullDescription (dropValueNa descTable.rows)
      (2023, ("0000000003"), ("Z")) = some ("Widget") ∧
    attachedSupcDesc descTable (dropValueNa descTable.rows)
      (2023, ("0000000003"), ("Z")) = none ∧
    firstNonNullSupcDesc (dropValueNa descTable.rows)
      (2023, ("0000000003"), ("Z")) = some ("Gadget") := by
  refine ⟨by decide, by decide, by decide, by decide⟩

/-- Claim C8 as amended: the description and supcDescription attached
to a key are those of the first row (in input order, among rows with a
non-missing value) bearing that key — whatever they are, null included —
with a column absent from the table attaching null. -/
theorem C8_first_row_description (t : Table) (hr : HhiRow)
    (h : hr ∈ hhiRows t) :
    ∃ r, (dropValueNa t.rows).find?
        (fun row => decide (rowKey row = (hr.year, hr.hs10, hr.supc))) = some r ∧
      hr.description = (if t.hasDescription then r.description else none) ∧
      hr.supcDesc = (if t.hasSupcDesc then r.supcDesc else none) := by
  obtain ⟨k, hk, rfl⟩ := List.mem_map.mp h
  obtain ⟨ky, kh, ks⟩ := k
  have hk' : (ky, kh, ks) ∈ (dropValueNa t.rows).map rowKey := by
    have h1 := (List.mem_insertionSort KeyLe).mp hk
    exact firstDedup_mem.mp h1
  obtain ⟨r0, hr0, hr0k⟩ := List.mem_map.mp hk'
  have hsome : ((dropValueNa t.rows).find?
      (fun row => decide (rowKey row = (ky, kh, ks)))).isSome := by
    rw [List.find?_isSome]
    exact ⟨r0, hr0, by simp [hr0k]⟩
  obtain ⟨r, hr⟩ := Option.isSome_iff_exists.mp hsome
  refine ⟨r, hr, ?_, ?_⟩
  · show attachedDescription t (dropValueNa t.rows) (ky, kh, ks) = _
    rw [attachedDescription]
    split
    · rw [hr]
      rfl
    · rfl
  · show attachedSupcDesc t (dropValueNa t.rows) (ky, kh, ks) = _
    rw [attachedSupcDesc]
    split
    · rw [hr]
      rfl
    · rfl

/-- Claim C8 witness: the amended theorem applied to the concrete table
whose first key-row carries null descriptions. -/
theorem C8_first_row_description_witness :
    descHhiRow ∈ hhiRows descTable ∧
    ∃ r, (dropValueNa descTable.rows).find?
        (fun row => decide (rowKey row =
          (descHhiRow.year, descHhiRow.hs10, descHhiRow.supc))) = some r ∧
      descHhiRow.description = (if descTable.hasDescription then r.description else none) ∧
      descHhiRow.supcDesc = (if descTable.hasSupcDesc then r.supcDesc else none) := by
  have hmem : descHhiRow ∈ hhiRows descTable := by
    simp [hhiRows, sortedKeys, mkHhiRow, attachedDescription, attachedSupcDesc,
      hhiOf, countriesOf, keyRows, rowKey, firstDedup, countryValue, productTotal,
      sumValues, rowValue, shareSq, PFloat.pdiv, PFloat.fillna0, PFloat.sq,
      PFloat.sum, PFloat.add, dropValueNa, descTable, descRowA, descRowB, descHhiRow,
      List.insertionSort, List.orderedInsert, KeyLe, keyLeB, strLeB]
  exact ⟨hmem, C8_first_row_description descTable descHhiRow hmem⟩

/-! ## Claim C1 (HHI bounds) — supporting lemmas -/

theorem mem_le_sum_q {l : List ℚ} (h : ∀ x ∈ l, 0 ≤ x) {a : ℚ} (ha : a ∈ l) :
    a ≤ l.sum := by
  induction l with
  | nil => cases ha
  | cons b l ih =>
    rw [List.sum_cons]
    rcases List.mem_cons.mp ha with rfl | ha'
    · have := list_sum_nonneg_q (fun x hx => h x (List.mem_cons_of_mem a hx))
      linarith
    · have hb := h b (List.mem_cons_self b l)
      have := ih (fun x hx => h x (List.mem_cons_of_mem b hx)) ha'
      linarith

theorem sumsq_le_sq_sum (l : List ℚ) (h : ∀ x ∈ l, 0 ≤ x) :
    (l.map (fun x => x * x)).sum ≤ l.sum * l.sum := by
  induction l with
  | nil => simp
  | cons a l ih =>
    simp only [List.map_cons, List.sum_cons]
    have ha := h a (List.mem_cons_self a l)
    have hs := list_sum_nonneg_q (fun x hx => h x (List.mem_cons_of_mem a hx))
    have ihh := ih (fun x hx => h x (List.mem_cons_of_mem a hx))
    nlinarith [ihh, ha, hs]

/-- A non-negative family sums of squares equals the square of the sum
exactly when one member carries the whole (non-zero) sum and every
other member is zero. -/
theorem sumsq_eq_sq_sum_iff [DecidableEq α] (ks : List α) (f : α → ℚ) :
    ks.Nodup → (∀ c ∈ ks, 0 ≤ f c) → (ks.map f).sum ≠ 0 →
    (((ks.map fun c => f c * f c).sum = (ks.map f).sum * (ks.map f).sum) ↔
      ∃ c ∈ ks, f c = (ks.map f).sum ∧ ∀ c' ∈ ks, c' ≠ c → f c' = 0) := by
  induction ks with
  | nil => intro _ _ hs; simp at hs
  | cons a rest ih =>
    intro hnd h0 hs
    have hna : a ∉ rest := (List.nodup_cons.mp hnd).1
    have hndr : rest.Nodup := (List.nodup_cons.mp hnd).2
    have h0r : ∀ c ∈ rest, 0 ≤ f c := fun c hc => h0 c (List.mem_cons_of_mem a hc)
    have hfa : 0 ≤ f a := h0 a (List.mem_cons_self a rest)
    have hSr : 0 ≤ (rest.map f).sum := by
      apply list_sum_nonneg_q
      intro x hx
      obtain ⟨c, hc, rfl⟩ := List.mem_map.mp hx
      exact h0r c hc
    have hQS : (rest.map fun c => f c * f c).sum ≤ (rest.map f).sum * (rest.map f).sum := by
      have h1 := sumsq_le_sq_sum (rest.map f) (by
        intro x hx
        obtain ⟨c, hc, rfl⟩ := List.mem_map.mp hx
        exact h0r c hc)
      simpa [List.map_map, Function.comp] using h1
    simp only [List.map_cons, List.sum_cons] at hs ⊢
    constructor
    · intro heq
      have key1 : f a * (rest.map f).sum = 0 := by nlinarith [heq, hfa, hSr, hQS]
      have key2 : (rest.map fun c => f c * f c).sum
          = (rest.map f).sum * (rest.map f).sum := by nlinarith [heq, hfa, hSr, hQS]
      rcases mul_eq_zero.mp key1 with hfa0 | hS0
      · have hs' : (rest.map f).sum ≠ 0 := by
          rw [hfa0, zero_add] at hs; exact hs
        obtain ⟨c, hc, hceq, hzero⟩ := (ih hndr h0r hs').mp key2
        refine ⟨c, List.mem_cons_of_mem a hc, ?_, ?_⟩
        · rw [hfa0, zero_add]; exact hceq
        · intro c' hc' hne
          rcases List.mem_cons.mp hc' with rfl | hc'r
          · exact hfa0
          · exact hzero c' hc'r hne
      · have hrz : ∀ c ∈ rest, f c = 0 := by
          intro c hc
          have hall := list_all_zero_of_sum_zero (l := rest.map f)
            (by intro x hx
                obtain ⟨y, hy, rfl⟩ := List.mem_map.mp hx
                exact h0r y hy) hS0
          exact hall (f c) (List.mem_map.mpr ⟨c, hc, rfl⟩)
        refine ⟨a, List.mem_cons_self a rest, by rw [hS0, add_zero], ?_⟩
        intro c' hc' hne
        rcases List.mem_cons.mp hc' with rfl | hc'r
        · exact absurd rfl hne
        · exact hrz c' hc'r
    · rintro ⟨c, hc, hceq, hzero⟩
      rcases List.mem_cons.mp hc with rfl | hcr
      · have hrz : ∀ x ∈ rest, f x = 0 := by
          intro x hx
          exact hzero x (List.mem_cons_of_mem c hx) (fun he => hna (he ▸ hx))
        have hS0 : (rest.map f).sum = 0 :=
          list_sum_of_all_zero (by
            intro x hx
            obtain ⟨y, hy, rfl⟩ := List.mem_map.mp hx
            exact hrz y hy)
        have hQ0 : (rest.map fun x => f x * f x).sum = 0 :=
          list_sum_of_all_zero (by
            intro x hx
            obtain ⟨y, hy, rfl⟩ := List.mem_map.mp hx
            rw [hrz y hy]; ring)
        rw [hS0, hQ0, add_zero, add_zero]
      · have hfa0 : f a = 0 :=
          hzero a (List.mem_cons_self a rest) (fun h => hna (h ▸ hcr))
        have hs' : (rest.map f).sum ≠ 0 := by
          rw [hfa0, zero_add] at hs; exact hs
        have hrest : (rest.map fun c => f c * f c).sum
            = (rest.map f).sum * (rest.map f).sum := by
          apply (ih hndr h0r hs').mpr
          refine ⟨c, hcr, ?_, ?_⟩
          · rw [hfa0, zero_add] at hceq
            exact hceq
          · intro c' hc' hne
            exact hzero c' (List.mem_cons_of_mem a hc') hne
        rw [hfa0, hrest]; ring

theorem list_sum_map_add (ks : List α) (g h : α → ℚ) :
    (ks.map (fun c => g c + h c)).sum = (ks.map g).sum + (ks.map h).sum := by
  induction ks with
  | nil => simp
  | cons a rest ih =>
    simp only [List.map_cons, List.sum_cons, ih]
    ring

theorem sum_indicator_q (ks : List String) (c0 : String) (v : ℚ) :
    ks.Nodup → c0 ∈ ks →
    (ks.map (fun c => if c0 = c then v else 0)).sum = v := by
  induction ks with
  | nil => intro _ h; cases h
  | cons a rest ih =>
    intro hnd hm
    simp only [List.map_cons, List.sum_cons]
    rcases List.mem_cons.mp hm with rfl | hmr
    · rw [if_pos rfl]
      have hza : c0 ∉ rest := (List.nodup_cons.mp hnd).1
      have hz : ∀ c ∈ rest, (if c0 = c then v else 0) = 0 := by
        intro c hc
        rw [if_neg]
        intro he
        exact hza (he ▸ hc)
      rw [list_sum_of_all_zero (by
        intro x hx
        obtain ⟨c, hc, rfl⟩ := List.mem_map.mp hx
        exact hz c hc), add_zero]
    · have hne : c0 ≠ a := fun he => (List.nodup_cons.mp hnd).1 (he ▸ hmr)
      rw [if_neg hne, ih (List.nodup_cons.mp hnd).2 hmr, zero_add]

/-- Summing the per-country value sums over the distinct countries of a
row list recovers the total sum (the share-sum invariant). -/
theorem sum_partition (l : List TradeRow) (ks : List String) :
    ks.Nodup → (∀ r ∈ l, r.country ∈ ks) →
    (ks.map (fun c => sumValues (l.filter (fun r => decide (r.country = c))))).sum
      = sumValues l := by
  induction l with
  | nil =>
    intro _ _
    rw [list_sum_of_all_zero (by
      intro x hx
      obtain ⟨c, _, rfl⟩ := List.mem_map.mp hx
      simp [sumValues])]
    simp [sumValues]
  | cons r rest ih =>
    intro hnd hcov
    have hstep : ∀ c : String,
        sumValues ((r :: rest).filter (fun x => decide (x.country = c)))
        = (if r.country = c then rowValue r else 0)
          + sumValues (rest.filter (fun x => decide (x.country = c))) := by
      intro c
      rw [List.filter_cons]
      by_cases hc : r.country = c
      · rw [if_pos (by simpa using hc), if_pos hc]
        simp [sumValues]
      · rw [if_neg (by simpa using hc), if_neg hc, zero_add]
    calc (ks.map fun c =>
            sumValues ((r :: rest).filter (fun x => decide (x.country = c)))).sum
        = (ks.map fun c => (if r.country = c then rowValue r else 0)
            + sumValues (rest.filter (fun x => decide (x.country = c)))).sum := by
          exact congrArg List.sum (List.map_congr_left (fun c _ => hstep c))
      _ = (ks.map fun c => if r.country = c then rowValue r else 0).sum
          + (ks.map fun c =>
              sumValues (rest.filter (fun x => decide (x.country = c)))).sum :=
          list_sum_map_add ks _ _
      _ = rowValue r + sumValues rest := by
          rw [sum_indicator_q ks r.country (rowValue r) hnd
            (hcov r (List.mem_cons_self r rest)),
            ih hnd (fun x hx => hcov x (List.mem_cons_of_mem r hx))]
      _ = sumValues (r :: rest) := by simp [sumValues]

/-- Share-sum invariant, specialised: the per-country sums of one key
add up to the key's total. -/
theorem sum_country_partition (dfc : List TradeRow) (k : HKey) :
    ((countriesOf dfc k).map (fun c => countryValue dfc k c)).sum
      = productTotal dfc k :=
  sum_partition (keyRows dfc k) (countriesOf dfc k) (firstDedup_nodup _)
    (fun r hr => firstDedup_mem.mpr (List.mem_map.mpr ⟨r, hr, rfl⟩))

theorem pfloat_sum_map_num (l : List α) (f : α → ℚ) :
    PFloat.sum (l.map (fun c => PFloat.num (f c))) = PFloat.num ((l.map f).sum) := by
  induction l with
  | nil => rfl
  | cons a rest ih =>
    simp only [List.map_cons, List.sum_cons]
    show PFloat.add (PFloat.num (f a)) (PFloat.sum (rest.map fun c => PFloat.num (f c)))
      = _
    rw [ih]
    rfl

theorem shareSq_of_ne_zero (v t : ℚ) (ht : t ≠ 0) :
    shareSq v t = PFloat.num ((v / t) * (v / t)) := by
  simp [shareSq, PFloat.pdiv, ht, PFloat.fillna0, PFloat.sq]

theorem list_sum_map_div (ks : List α) (f : α → ℚ) (T : ℚ) :
    (ks.map fun c => f c / T).sum = (ks.map f).sum / T := by
  induction ks with
  | nil => simp
  | cons a rest ih => simp only [List.map_cons, List.sum_cons, ih, add_div]

/-- Claim C1: for a key with positive total value (under the data
model's non-negative values), the HHI is a finite rational in `(0, 1]`,
and it equals 1 exactly when a single origin country carries the whole
total with every other country at 0. -/
theorem C1_hhi_bounds (t : Table) (k : HKey)
    (hv : ∀ r ∈ t.rows, 0 ≤ rowValue r)
    (ht : 0 < productTotal (dropValueNa t.rows) k) :
    ∃ q : ℚ, hhiOf (dropValueNa t.rows) k = PFloat.num q ∧ 0 < q ∧ q ≤ 1 ∧
      (q = 1 ↔ ∃ c ∈ countriesOf (dropValueNa t.rows) k,
        countryValue (dropValueNa t.rows) k c = productTotal (dropValueNa t.rows) k ∧
        ∀ c' ∈ countriesOf (dropValueNa t.rows) k, c' ≠ c →
          countryValue (dropValueNa t.rows) k c' = 0) := by
  set dfc := dropValueNa t.rows with hdfc
  set T := productTotal dfc k with hT
  set ks := countriesOf dfc k with hks
  have hT0 : T ≠ 0 := ne_of_gt ht
  have hvdfc : ∀ r ∈ dfc, 0 ≤ rowValue r := fun r hr => hv r (List.mem_of_mem_filter hr)
  have hvk : ∀ c, 0 ≤ countryValue dfc k c := by
    intro c
    show 0 ≤ sumValues _
    apply list_sum_nonneg_q
    intro x hx
    obtain ⟨r, hr, rfl⟩ := List.mem_map.mp hx
    exact hvdfc r (List.mem_of_mem_filter (List.mem_of_mem_filter hr))
  have hpart : (ks.map (fun c => countryValue dfc k c)).sum = T := sum_country_partition dfc k
  have hshare_sum : (ks.map (fun c => countryValue dfc k c / T)).sum = 1 := by
    rw [list_sum_map_div, hpart, div_self hT0]
  have hhhi : hhiOf dfc k = PFloat.num
      ((ks.map (fun c => (countryValue dfc k c / T) * (countryValue dfc k c / T))).sum) := by
    rw [hhiOf]
    have hmc : (ks.map fun c => shareSq (countryValue dfc k c) T)
        = ks.map (fun c =>
            PFloat.num ((countryValue dfc k c / T) * (countryValue dfc k c / T))) :=
      List.map_congr_left (fun c _ => shareSq_of_ne_zero _ _ hT0)
    rw [hmc, pfloat_sum_map_num]
  have hsqnn : ∀ x ∈ ks.map (fun c =>
      (countryValue dfc k c / T) * (countryValue dfc k c / T)), 0 ≤ x := by
    intro x hx
    obtain ⟨c, hc, rfl⟩ := List.mem_map.mp hx
    exact mul_self_nonneg _
  refine ⟨_, hhhi, ?_, ?_, ?_⟩
  · have hex : ∃ c ∈ ks, 0 < countryValue dfc k c := by
      by_contra hno
      push_neg at hno
      have hz : ∀ c ∈ ks, countryValue dfc k c = 0 := by
        intro c hc
        have h1 := hno c hc
        have h2 := hvk c
        linarith
      have hzero : (ks.map (fun c => countryValue dfc k c)).sum = 0 :=
        list_sum_of_all_zero (by
          intro x hx
          obtain ⟨c, hc, rfl⟩ := List.mem_map.mp hx
          exact hz c hc)
      exact hT0 (by rw [← hpart, hzero])
    obtain ⟨c0, hc0, hpos⟩ := hex
    have hs0 : 0 < countryValue dfc k c0 / T := div_pos hpos ht
    have hmem : (countryValue dfc k c0 / T) * (countryValue dfc k c0 / T)
        ∈ ks.map (fun c => (countryValue dfc k c / T) * (countryValue dfc k c / T)) :=
      List.mem_map.mpr ⟨c0, hc0, rfl⟩
    have hle := mem_le_sum_q hsqnn hmem
    nlinarith [hle, hs0]
  · have h1 := sumsq_le_sq_sum (ks.map fun c => countryValue dfc k c / T) (by
      intro x hx
      obtain ⟨c, hc, rfl⟩ := List.mem_map.mp hx
      exact div_nonneg (hvk c) (le_of_lt ht))
    rw [hshare_sum, one_mul] at h1
    simpa [List.map_map, Function.comp] using h1
  · have hiff := sumsq_eq_sq_sum_iff ks (fun c => countryValue dfc k c / T)
      (firstDedup_nodup _)
      (fun c _ => div_nonneg (hvk c) (le_of_lt ht))
      (by rw [hshare_sum]; exact one_ne_zero)
    rw [hshare_sum, one_mul] at hiff
    rw [hiff]
    constructor
    · rintro ⟨c, hc, h1, h2⟩
      refine ⟨c, hc, ?_, ?_⟩
      · exact (div_eq_one_iff_eq hT0).mp h1
      · intro c' hc' hne
        rcases div_eq_zero_iff.mp (h2 c' hc' hne) with h | h
        · exact h
        · exact absurd h hT0
    · rintro ⟨c, hc, h1, h2⟩
      refine ⟨c, hc, ?_, ?_⟩
      · show countryValue dfc k c / T = 1
        rw [h1]; exact div_self hT0
      · intro c' hc' hne
        show countryValue dfc k c' / T = 0
        rw [h2 c' hc' hne]
        exact zero_div T

/-- Claim C1 witness: the single-row sample table (scenario B) has a
positive total, and its HHI is the exact rational 1. -/
theorem C1_hhi_bounds_witness :
    (∀ r ∈ sampleTable.rows, 0 ≤ rowValue r) ∧
    (0 < productTotal (dropValueNa sampleTable.rows) (2023, ("0000000001"), ("X"))) ∧
    hhiOf (dropValueNa sampleTable.rows) (2023, ("0000000001"), ("X")) = PFloat.num 1 ∧
    (∃ q : ℚ, hhiOf (dropValueNa sampleTable.rows) (2023, ("0000000001"), ("X"))
        = PFloat.num q ∧ 0 < q ∧ q ≤ 1 ∧
      (q = 1 ↔ ∃ c ∈ countriesOf (dropValueNa sampleTable.rows) (2023, ("0000000001"), ("X")),
        countryValue (dropValueNa sampleTable.rows) (2023, ("0000000001"), ("X")) c
          = productTotal (dropValueNa sampleTable.rows) (2023, ("0000000001"), ("X")) ∧
        ∀ c' ∈ countriesOf (dropValueNa sampleTable.rows) (2023, ("0000000001"), ("X")),
          c' ≠ c →
          countryValue (dropValueNa sampleTable.rows) (2023, ("0000000001"), ("X")) c'
            = 0)) := by
  have h1 : ∀ r ∈ sampleTable.rows, 0 ≤ rowValue r := by
    simp [sampleTable, sampleRow, rowValue]
  have h2 : 0 < productTotal (dropValueNa sampleTable.rows) (2023, ("0000000001"), ("X")) := by
    simp [productTotal, keyRows, dropValueNa, sumValues, rowValue, rowKey,
      sampleTable, sampleRow]
  have h3 : hhiOf (dropValueNa sampleTable.rows) (2023, ("0000000001"), ("X"))
      = PFloat.num 1 := by
    simp [hhiOf, countriesOf, keyRows, rowKey, firstDedup, countryValue,
      productTotal, sumValues, rowValue, shareSq, PFloat.pdiv, PFloat.fillna0,
      PFloat.sq, PFloat.sum, PFloat.add, dropValueNa, sampleTable, sampleRow]
  exact ⟨h1, h2, h3, C1_hhi_bounds sampleTable (2023, ("0000000001"), ("X")) h1 h2⟩

/-! ## Claim C4 (facets never alter HHI or rank) -/

theorem sortedKeys_nodup (dfc : List TradeRow) : (sortedKeys dfc).Nodup :=
  ((List.perm_insertionSort KeyLe _).nodup_iff).mpr
    (firstDedup_nodup (dfc.map rowKey))

theorem hhiRows_keys (t : Table) :
    (hhiRows t).map hhiRowKey = sortedKeys (dropValueNa t.rows) := by
  rw [hhiRows, List.map_map]
  have h : ∀ k ∈ sortedKeys (dropValueNa t.rows),
      (hhiRowKey ∘ mkHhiRow t (dropValueNa t.rows)) k = k := by
    intro k _
    obtain ⟨a, b, c⟩ := k
    rfl
  rw [List.map_congr_left h]
  simp

theorem rankedTable_keys (t : Table) :
    (rankedTable t).map rankedKey = (hhiSorted t).map hhiRowKey := by
  have h := congrArg (List.map hhiRowKey) (rankedTable_map_toHhi t)
  rw [List.map_map] at h
  exact h

theorem rankedTable_keys_nodup (t : Table) :
    ((rankedTable t).map rankedKey).Nodup := by
  rw [rankedTable_keys]
  have hperm : List.Perm ((hhiSorted t).map hhiRowKey) ((hhiRows t).map hhiRowKey) :=
    (List.perm_insertionSort HhiLe (hhiRows t)).map hhiRowKey
  rw [hperm.nodup_iff, hhiRows_keys]
  exact sortedKeys_nodup _

theorem mem_of_mem_hhiFiltered {t : Table} {f : Facets} {r : RankedRow}
    (h : r ∈ hhiFiltered t f) : r ∈ rankedTable t := by
  by_cases hmp : getMatchedProducts t f = []
  · rw [hhiFiltered, if_pos hmp] at h
    exact List.mem_of_mem_filter h
  · rw [hhiFiltered, if_neg hmp] at h
    exact List.mem_of_mem_filter (List.mem_of_mem_filter h)

/-- Claim C4: the country/province/state facet selections only choose
which rows of the precomputed ranked table are shown: any two facet
choices agree on the `hhi` and `rank` of every key present in both
outputs, because both outputs are sublists of the one `rankedTable`
(whose keys are unique). -/
theorem C4_facets_never_alter_hhi (t : Table) (f1 f2 : Facets)
    (r1 r2 : RankedRow)
    (h1 : r1 ∈ hhiFiltered t f1) (h2 : r2 ∈ hhiFiltered t f2)
    (hk : rankedKey r1 = rankedKey r2) :
    r1.hhi = r2.hhi ∧ r1.rank = r2.rank := by
  have m1 := mem_of_mem_hhiFiltered h1
  have m2 := mem_of_mem_hhiFiltered h2
  have heq : r1 = r2 :=
    List.inj_on_of_nodup_map (rankedTable_keys_nodup t) m1 m2 hk
  rw [heq]
  exact ⟨rfl, rfl⟩

/-- Claim C4 witness: the sample key appears both with no country
restriction and with the matching `CA` restriction, and the theorem
yields equal HHI and rank. -/
theorem C4_facets_never_alter_hhi_witness :
    sampleRanked ∈ hhiFiltered sampleTable facetsAll ∧
    sampleRanked ∈ hhiFiltered sampleTable facetsCA ∧
    sampleRanked.hhi = sampleRanked.hhi ∧ sampleRanked.rank = sampleRanked.rank := by
  have hm1 : sampleRanked ∈ hhiFiltered sampleTable facetsAll := by
    simp [hhiFiltered, getMatchedProducts, matchedByIndustry, rankedTable, rankAux,
      pandasRank, hhiSorted, hhiRows, sortedKeys, mkHhiRow, attachedDescription,
      attachedSupcDesc, hhiOf, countriesOf, keyRows, rowKey, firstDedup,
      countryValue, productTotal, sumValues, rowValue, shareSq, PFloat.pdiv,
      PFloat.fillna0, PFloat.sq, PFloat.sum, PFloat.add, PFloat.gt, dropValueNa,
      sampleTable, sampleRow, sampleRanked, facetsAll, List.insertionSort,
      List.orderedInsert, HhiLe, hhiSortLe, KeyLe, keyLeB, strLeB, mkRanked,
      PFloat.descLe]
  have hm2 : sampleRanked ∈ hhiFiltered sampleTable facetsCA := by
    simp [hhiFiltered, getMatchedProducts, matchedByIndustry, rankedTable, rankAux,
      pandasRank, hhiSorted, hhiRows, sortedKeys, mkHhiRow, attachedDescription,
      attachedSupcDesc, hhiOf, countriesOf, keyRows, rowKey, firstDedup,
      countryValue, productTotal, sumValues, rowValue, shareSq, PFloat.pdiv,
      PFloat.fillna0, PFloat.sq, PFloat.sum, PFloat.add, PFloat.gt, dropValueNa,
      sampleTable, sampleRow, sampleRanked, facetsCA, List.insertionSort,
      List.orderedInsert, HhiLe, hhiSortLe, KeyLe, keyLeB, strLeB, mkRanked,
      PFloat.descLe]
  exact ⟨hm1, hm2,
    C4_facets_never_alter_hhi sampleTable facetsAll facetsCA sampleRanked
      sampleRanked hm1 hm2 rfl⟩

/-! ## Claim C3 (rank well-formedness) — order lemmas on `PFloat` -/

theorem pf_descLe_refl (a : PFloat) : PFloat.descLe a a = true := by
  cases a <;> simp [PFloat.descLe]

theorem pf_descLe_total (a b : PFloat) :
    PFloat.descLe a b = true ∨ PFloat.descLe b a = true := by
  cases a <;> cases b <;> simp [PFloat.descLe] <;> exact le_total _ _

theorem pf_descLe_trans {a b c : PFloat} (h1 : PFloat.descLe a b = true)
    (h2 : PFloat.descLe b c = true) : PFloat.descLe a c = true := by
  cases a <;> cases b <;> cases c <;>
    simp_all [PFloat.descLe] <;> exact le_trans h2 h1

theorem pf_gt_irrefl (a : PFloat) : PFloat.gt a a = false := by
  cases a <;> simp [PFloat.gt]

theorem pf_descLe_not_gt {a b : PFloat} (h : PFloat.descLe a b = true) :
    PFloat.gt b a = false := by
  cases a <;> cases b <;> simp_all [PFloat.descLe, PFloat.gt]

theorem pf_trichotomy {a b : PFloat} (hb : b ≠ PFloat.nan)
    (h : PFloat.descLe a b = true) :
    PFloat.gt a b = true ∨ a = b := by
  cases a <;> cases b <;> simp_all [PFloat.descLe, PFloat.gt]
  rcases lt_or_eq_of_le h with h' | h'
  · exact Or.inl h'
  · exact Or.inr h'.symm

/-- The values that can actually appear in the `HHI` column: a finite
rational or plus infinity (never NaN, never minus infinity). -/
def PFOk (x : PFloat) : Prop := (∃ q : ℚ, x = PFloat.num q) ∨ x = PFloat.posInf

theorem pfok_ne_nan {x : PFloat} (h : PFOk x) : x ≠ PFloat.nan := by
  rcases h with ⟨q, rfl⟩ | rfl <;> intro hc <;> cases hc

theorem shareSq_ok (v t : ℚ) : PFOk (shareSq v t) := by
  rw [shareSq, PFloat.pdiv]
  by_cases ht : t = 0
  · rw [if_pos ht]
    by_cases hv : v = 0
    · rw [if_pos hv]
      exact Or.inl ⟨0 * 0, rfl⟩
    · rw [if_neg hv]
      by_cases hp : 0 < v
      · rw [if_pos hp]
        exact Or.inr rfl
      · rw [if_neg hp]
        exact Or.inr rfl
  · rw [if_neg ht]
    exact Or.inl ⟨(v / t) * (v / t), rfl⟩

theorem pf_add_ok {a b : PFloat} (ha : PFOk a) (hb : PFOk b) :
    PFOk (PFloat.add a b) := by
  rcases ha with ⟨p, rfl⟩ | rfl <;> rcases hb with ⟨q, rfl⟩ | rfl
  · exact Or.inl ⟨p + q, rfl⟩
  · exact Or.inr rfl
  · exact Or.inr rfl
  · exact Or.inr rfl

theorem pf_sum_ok {l : List PFloat} (h : ∀ x ∈ l, PFOk x) : PFOk (PFloat.sum l) := by
  induction l with
  | nil => exact Or.inl ⟨0, rfl⟩
  | cons a rest ih =>
    exact pf_add_ok (h a (List.mem_cons_self a rest))
      (ih (fun x hx => h x (List.mem_cons_of_mem a hx)))

theorem hhiOf_ok (dfc : List TradeRow) (k : HKey) : PFOk (hhiOf dfc k) := by
  apply pf_sum_ok
  intro x hx
  obtain ⟨c, _, rfl⟩ := List.mem_map.mp hx
  exact shareSq_ok _ _

theorem hhiSorted_hhi_ok (t : Table) :
    ∀ r ∈ hhiSorted t, r.hhi ≠ PFloat.nan := by
  intro r hr
  have hr' : r ∈ hhiRows t := (List.mem_insertionSort HhiLe).mp hr
  obtain ⟨k, _, rfl⟩ := List.mem_map.mp hr'
  exact pfok_ne_nan (hhiOf_ok _ _)

/-! Comparator instances for the stable sort of the HHI frame. -/

theorem hhiSortLe_total (a b : HhiRow) : HhiLe a b ∨ HhiLe b a := by
  unfold HhiLe hhiSortLe
  simp only [Bool.or_eq_true, Bool.and_eq_true, decide_eq_true_eq]
  rcases Int.lt_trichotomy a.year b.year with h | h | h
  · exact Or.inl (Or.inl h)
  · rcases pf_descLe_total a.hhi b.hhi with hd | hd
    · exact Or.inl (Or.inr ⟨h, hd⟩)
    · exact Or.inr (Or.inr ⟨h.symm, hd⟩)
  · exact Or.inr (Or.inl h)

theorem hhiSortLe_trans {a b c : HhiRow} (h1 : HhiLe a b) (h2 : HhiLe b c) :
    HhiLe a c := by
  unfold HhiLe hhiSortLe at h1 h2 ⊢
  simp only [Bool.or_eq_true, Bool.and_eq_true, decide_eq_true_eq] at h1 h2 ⊢
  rcases h1 with h1 | ⟨h1y, h1d⟩ <;> rcases h2 with h2 | ⟨h2y, h2d⟩
  · exact Or.inl (by omega)
  · exact Or.inl (by omega)
  · exact Or.inl (by omega)
  · exact Or.inr ⟨by omega, pf_descLe_trans h1d h2d⟩

instance : IsTotal HhiRow HhiLe := ⟨hhiSortLe_total⟩

instance : IsTrans HhiRow HhiLe := ⟨fun _ _ _ => hhiSortLe_trans⟩

theorem hhiSorted_sorted (t : Table) : List.Sorted HhiLe (hhiSorted t) :=
  List.sorted_insertionSort HhiLe (hhiRows t)

theorem hhiLe_same_year {a b : HhiRow} (h : HhiLe a b) (hy : a.year = b.year) :
    PFloat.descLe a.hhi b.hhi = true := by
  unfold HhiLe hhiSortLe at h
  simp only [Bool.or_eq_true, Bool.and_eq_true, decide_eq_true_eq] at h
  rcases h with h | ⟨_, h⟩
  · omega
  · exact h

/-- Splitting the same-year count of a prefix into a strictly-greater
part and an equal part: valid when every same-year prefix element is at
least `h` in the descending order. -/
theorem countP_split_gt_eq (pre : List HhiRow) (y : Int) (h : PFloat)
    (hok : h ≠ PFloat.nan)
    (hge : ∀ s ∈ pre, s.year = y → PFloat.descLe s.hhi h = true) :
    pre.countP (fun s => decide (s.year = y) && PFloat.gt s.hhi h)
      + pre.countP (fun s => decide (s.year = y) && decide (s.hhi = h))
      = pre.countP (fun s => decide (s.year = y)) := by
  induction pre with
  | nil => rfl
  | cons s rest ih =>
    have ih' := ih (fun x hx hy => hge x (List.mem_cons_of_mem s hx) hy)
    simp only [List.countP_cons]
    by_cases hy : s.year = y
    · have hle := hge s (List.mem_cons_self s rest) hy
      rcases pf_trichotomy hok hle with hgt | heq
      · have hne : s.hhi ≠ h := by
          intro hv
          rw [hv, pf_gt_irrefl] at hgt
          exact Bool.noConfusion hgt
        simp [hy, hgt, hne]
        omega
      · simp [hy, heq, pf_gt_irrefl]
        omega
    · simp [hy]
      omega

/-- The pandas `method="first"` descending rank of the head of the
suffix of a sorted frame is its same-year prefix count plus one. -/
theorem pandasRank_eq (pre rest : List HhiRow) (r : HhiRow)
    (hsort : List.Pairwise HhiLe (pre ++ r :: rest))
    (hok : r.hhi ≠ PFloat.nan) :
    pandasRank (pre ++ r :: rest) pre r
      = pre.countP (fun s => decide (s.year = r.year)) + 1 := by
  obtain ⟨hpre, hmid, hcross⟩ := List.pairwise_append.mp hsort
  have hrrest : ∀ s ∈ rest, HhiLe r s := fun s hs =>
    List.rel_of_pairwise_cons hmid hs
  have hER : rest.countP
      (fun s => decide (s.year = r.year) && PFloat.gt s.hhi r.hhi) = 0 := by
    rw [List.countP_eq_zero]
    intro s hs
    simp only [Bool.and_eq_true, decide_eq_true_eq, not_and]
    intro hy
    have hle := hhiLe_same_year (hrrest s hs) hy.symm
    rw [pf_descLe_not_gt hle]
    simp
  have hprecond : ∀ s ∈ pre, s.year = r.year →
      PFloat.descLe s.hhi r.hhi = true := fun s hs hy =>
    hhiLe_same_year (hcross s hs r (List.mem_cons_self r rest)) hy
  have hsplit := countP_split_gt_eq pre r.year r.hhi hok hprecond
  rw [pandasRank, List.countP_append]
  simp [List.countP_cons, pf_gt_irrefl]
  omega

/-- Walking a sorted frame, the ranks handed to the year-`y` rows of
the remaining suffix are consecutive, starting just after the number of
year-`y` rows already passed. -/
theorem rankAux_filter_ranks (l : List HhiRow) (y : Int)
    (hsort : List.Pairwise HhiLe l) (hok : ∀ r ∈ l, r.hhi ≠ PFloat.nan) :
    ∀ (post pre : List HhiRow), l = pre ++ post →
    ((rankAux l pre post).filter (fun r => decide (r.year = y))).map (fun r => r.rank)
      = List.range' (pre.countP (fun s => decide (s.year = y)) + 1)
          (post.countP (fun s => decide (s.year = y))) := by
  intro post
  induction post with
  | nil =>
    intro pre _
    rfl
  | cons r rest ih =>
    intro pre hl
    have hrank : pandasRank l pre r
        = pre.countP (fun s => decide (s.year = r.year)) + 1 := by
      rw [hl]
      exact pandasRank_eq pre rest r (hl ▸ hsort)
        (hok r (by rw [hl]; exact List.mem_append_right _ (List.mem_cons_self r rest)))
    have ihtail := ih (pre ++ [r]) (by rw [hl, List.append_assoc]; rfl)
    simp only [rankAux]
    by_cases hy : r.year = y
    · have hfc : List.filter (fun rr : RankedRow => decide (rr.year = y))
          (mkRanked r (pandasRank l pre r) :: rankAux l (pre ++ [r]) rest)
          = mkRanked r (pandasRank l pre r)
            :: List.filter (fun rr : RankedRow => decide (rr.year = y))
                (rankAux l (pre ++ [r]) rest) := by
        simp [List.filter_cons, mkRanked, hy]
      have hcc : List.countP (fun s : HhiRow => decide (s.year = y)) (r :: rest)
          = List.countP (fun s : HhiRow => decide (s.year = y)) rest + 1 := by
        simp [List.countP_cons, hy]
      have h1 : ([r] : List HhiRow).countP (fun s => decide (s.year = y)) = 1 := by
        simp [List.countP_cons, hy]
      rw [hfc, List.map_cons, hcc, List.range'_succ]
      congr 1
      · show pandasRank l pre r
          = pre.countP (fun s => decide (s.year = y)) + 1
        rw [hrank, hy]
      · rw [ihtail, List.countP_append, h1]
    · have hfc : List.filter (fun rr : RankedRow => decide (rr.year = y))
          (mkRanked r (pandasRank l pre r) :: rankAux l (pre ++ [r]) rest)
          = List.filter (fun rr : RankedRow => decide (rr.year = y))
              (rankAux l (pre ++ [r]) rest) := by
        simp [List.filter_cons, mkRanked, hy]
      have hcc : List.countP (fun s : HhiRow => decide (s.year = y)) (r :: rest)
          = List.countP (fun s : HhiRow => decide (s.year = y)) rest := by
        simp [List.countP_cons, hy]
      have h0 : ([r] : List HhiRow).countP (fun s => decide (s.year = y)) = 0 := by
        simp [List.countP_cons, hy]
      rw [hfc, hcc, ihtail, List.countP_append, h0]

/-! Stability of the insertion sort under a filter whose members are
pairwise interchangeable for the comparator. -/

theorem orderedInsert_filter_of_neg {α : Type} {r : α → α → Prop} [DecidableRel r]
    (p : α → Bool) (a : α) (l : List α) (ha : p a = false) :
    (List.orderedInsert r a l).filter p = l.filter p := by
  induction l with
  | nil => simp [List.orderedInsert, ha]
  | cons b bs ih =>
    rw [List.orderedInsert]
    split
    · rw [List.filter_cons_of_neg (by simp [ha])]
    · rw [List.filter_cons, List.filter_cons, ih]

theorem orderedInsert_filter_of_pos {α : Type} {r : α → α → Prop} [DecidableRel r]
    (p : α → Bool) (a : α) (l : List α) (ha : p a = true)
    (hpass : ∀ b ∈ l, p b = true → r a b) :
    (List.orderedInsert r a l).filter p = a :: l.filter p := by
  induction l with
  | nil => simp [List.orderedInsert, ha]
  | cons b bs ih =>
    rw [List.orderedInsert]
    split
    · rw [List.filter_cons_of_pos (by simp [ha])]
    · rename_i hnab
      have hnb : p b = false := by
        cases hpb : p b
        · rfl
        · exact absurd (hpass b (List.mem_cons_self b bs) hpb) hnab
      rw [List.filter_cons_of_neg (by simp [hnb]),
        ih (fun x hx hpx => hpass x (List.mem_cons_of_mem b hx) hpx),
        List.filter_cons_of_neg (by simp [hnb])]

theorem insertionSort_filter_stable {α : Type} {r : α → α → Prop} [DecidableRel r]
    (p : α → Bool) (hequiv : ∀ a b, p a = true → p b = true → r a b) :
    ∀ l : List α, (List.insertionSort r l).filter p = l.filter p := by
  intro l
  induction l with
  | nil => rfl
  | cons a as ih =>
    rw [List.insertionSort]
    cases hpa : p a
    · rw [orderedInsert_filter_of_neg p a _ hpa, ih,
        List.filter_cons_of_neg (by simp [hpa])]
    · rw [orderedInsert_filter_of_pos p a _ hpa
        (fun b _ hpb => hequiv a b hpa hpb), ih,
        List.filter_cons_of_pos (by simp [hpa])]

/-- Claim C3: within each period, the ranks of the ranked table are the
dense sequence `1..N` with no gaps, the HHI column is non-increasing
along it, and rows with equal `(year, hhi)` keep their pre-sort
relative order (the sort is stable). -/
theorem C3_rank_wellformed (t : Table) (y : Int) :
    ((((rankedTable t).filter (fun r => decide (r.year = y))).map (fun r => r.rank))
        = List.range' 1
            ((rankedTable t).filter (fun r => decide (r.year = y))).length) ∧
    List.Pairwise (fun a b : RankedRow => PFloat.descLe a.hhi b.hhi = true)
      ((rankedTable t).filter (fun r => decide (r.year = y))) ∧
    (∀ h : PFloat,
      (hhiSorted t).filter (fun r => decide (r.year = y) && decide (r.hhi = h))
        = (hhiRows t).filter (fun r => decide (r.year = y) && decide (r.hhi = h))) := by
  have hsort : List.Pairwise HhiLe (hhiSorted t) := hhiSorted_sorted t
  have hok := hhiSorted_hhi_ok t
  have hRT : rankedTable t = rankAux (hhiSorted t) [] (hhiSorted t) := rfl
  have hR := rankAux_filter_ranks (hhiSorted t) y hsort hok (hhiSorted t) [] rfl
  refine ⟨?_, ?_, ?_⟩
  · have hlen := congrArg List.length hR
    simp only [List.length_map, List.length_range'] at hlen
    rw [hRT, hlen]
    simpa using hR
  · have h0 : List.Pairwise HhiLe ((rankedTable t).map toHhi) := by
      rw [rankedTable_map_toHhi]
      exact hsort
    have h1 := List.pairwise_map.mp h0
    have h2 : List.Pairwise (fun a b => HhiLe (toHhi a) (toHhi b))
        ((rankedTable t).filter (fun r => decide (r.year = y))) :=
      List.Pairwise.sublist (List.filter_sublist _) h1
    refine h2.imp_of_mem ?_
    intro a b ha hb hab
    have hay : a.year = y := by simpa using (List.mem_filter.mp ha).2
    have hby : b.year = y := by simpa using (List.mem_filter.mp hb).2
    have hyy : (toHhi a).year = (toHhi b).year := by
      show a.year = b.year
      omega
    exact hhiLe_same_year hab hyy
  · intro h
    apply insertionSort_filter_stable
    intro a b hpa hpb
    simp only [Bool.and_eq_true, decide_eq_true_eq] at hpa hpb
    unfold HhiLe hhiSortLe
    simp only [Bool.or_eq_true, Bool.and_eq_true, decide_eq_true_eq]
    right
    refine ⟨by omega, ?_⟩
    rw [hpa.2, hpb.2]
    exact pf_descLe_refl h

end Trade
